import Mathlib

/-!
Verification of the skill-matching workflow of `nexus-backend`
(src/unnamed/part_000, src/index.ts).

The program is a linear pipeline: read all skills from a graph store, ask an
LLM which of them are relevant to a problem text, collect the persons holding
those skills into a person-to-skill map, and ask the LLM for the best match.
External collaborators (the Neo4j graph store and the OpenAI structured
completion client) are modelled as oracles; the workflow itself is embedded as
executable Lean functions over those oracles, together with an event trace
recording every external call the workflow issues.
-/

set_option autoImplicit false

namespace Nexus

/-- Errors raised by an adapter (I/O failure of the store or the LLM client).
The payload is irrelevant to control flow; a string stands in for it. -/
abbrev Err := String

/-- The zod schema `UsefulSkills` (src/unnamed/part_000 lines 14-16): the
parsed shape of the step-2 LLM answer. -/
structure UsefulSkills where
  skills : List String
deriving DecidableEq

/-- The zod schema `BestMatchingPerson` (src/unnamed/part_000 lines 133-136):
the parsed shape of the step-4 LLM answer, the MatchResult. -/
structure BestMatchingPerson where
  personName : String
  reason : String
deriving DecidableEq

/-- The type `PersonContainer` (src/unnamed/part_000 lines 104-106): a JS object mapping
person names to skill lists.  JS objects preserve the insertion order of their
string keys, so the embedding is an insertion-ordered association list. -/
abbrev PersonContainer := List (String × List String)

/-- Reading `personContainer[personName]`: the value of the first (and, as the
construction never inserts a key twice, only) entry with this key, or `none`
when the key is absent (JS `undefined`). -/
def lookupEntry : PersonContainer → String → Option (List String)
  | [], _ => none
  | e :: rest, k => if e.1 = k then some e.2 else lookupEntry rest k

/-- The body of the record loop of `getPersonList` (src/unnamed/part_000
lines 122-126): `if (!personContainer[personName])` create the entry
`[necessarySkill]`, `else` push `necessarySkill` onto the existing array.
A stored value is always a non-empty JS array, hence truthy, so the `!` test
is exactly the absence test. -/
def addSkillEntry (pc : PersonContainer) (personName skill : String) : PersonContainer :=
  if lookupEntry pc personName = none then
    pc ++ [(personName, [skill])]
  else
    pc.map (fun e => if e.1 = personName then (e.1, e.2 ++ [skill]) else e)

/-- The record loop of `getPersonList` (src/unnamed/part_000 lines 119-127):
fold `addSkillEntry` over the persons returned by one skill query. -/
def processRecords (pc : PersonContainer) (skill : String) (persons : List String) : PersonContainer :=
  persons.foldl (fun acc p => addSkillEntry acc p skill) pc

/-- The function `getPersonList` (src/unnamed/part_000 lines 108-131), with the graph store
abstracted into the pure query function `store` (what
`listPersonsWithSkill`, i.e. the `MATCH (person:Person)-[:HAS_SKILL]->...`
query, returns for each skill name): starting from the empty container,
process the skills in order. -/
def getPersonList (store : String → List String) (necessarySkills : List String) : PersonContainer :=
  necessarySkills.foldl (fun acc s => processRecords acc s (store s)) []

/-- Written from the spec's words (section 4.3 step 3): "for each skill, for
each person holding it, appending the skill to that person's list, creating
the list if this is the person's first appearance".  First appearance is
tested by key membership; compare with `addSkillEntry`, which tests
`lookupEntry = none`. -/
def refAppendSkill (m : PersonContainer) (p s : String) : PersonContainer :=
  if p ∈ m.map Prod.fst then
    m.map (fun e => if e.1 = p then (e.1, e.2 ++ [s]) else e)
  else
    m ++ [(p, [s])]

/-- Written from the spec's words (section 4.3 step 3): the reference
PersonSkillMap builder that `getPersonList` is claimed to equal. -/
def personSkillMapRef (store : String → List String) (skills : List String) : PersonContainer :=
  skills.foldl (fun m s => (store s).foldl (fun acc p => refAppendSkill acc p s) m) []

/-! ### Prompt construction -/

/-- The step-2 system prompt of `findNecessarySkills` (src/unnamed/part_000
line 233): a fixed sentence followed by `existingSkills.join(", ")`.  There is
no branch on emptiness; an empty list simply appends the empty join. -/
def findNecessarySkillsSystemContent (existingSkills : List String) : String :=
  "Find the skills out of the following list that could help the most with the problem the user describes. " ++ String.intercalate ", " existingSkills

/-- The system prompt of the disabled `extractSkills` step (src/unnamed/part_000
lines 193-199): initialized to the short form and overwritten by the long form
when `existingSkills.length !== 0` — this function, not step 2, holds the
explicit empty/non-empty branch. -/
def extractSkillsSystemContent (person : String) (existingSkills : List String) : String :=
  if existingSkills.length ≠ 0 then
    "Extract the skills (preferably in one word) of the person called " ++ person ++ ". The following skills already exist and can be used, but if the person has skills not in this list, create a new one: " ++ String.intercalate ", " existingSkills
  else
    "Extract the skills (preferably in one word) of the person called " ++ person ++ "."

/-- The step-4 system message of `findMatchingPerson` (src/unnamed/part_000
lines 144-145). -/
def findMatchingPersonSystemMessage : String :=
  "Find the person with the best matching skillset to solve the problem and justify your decision shortly."

/-! ### JSON serialization (`JSON.stringify(personContainer)`) -/

/-- JSON escaping of one character inside a string value, as `JSON.stringify`
performs it: quote and backslash are escaped, the common control characters get
their two-character escapes, every other character is emitted as itself (the
strings of this program contain no other control characters). -/
def jsonEscapeChar (c : Char) : String :=
  if c = Char.ofNat 34 then "\\\""
  else if c = Char.ofNat 92 then "\\\\"
  else if c = Char.ofNat 10 then "\\n"
  else if c = Char.ofNat 9 then "\\t"
  else if c = Char.ofNat 13 then "\\r"
  else String.singleton c

/-- A JSON string literal for `s`. -/
def jsonString (s : String) : String :=
  "\"" ++ String.join (s.data.map jsonEscapeChar) ++ "\""

/-- A JSON array of string literals, as `JSON.stringify` prints a `string[]`
(no spaces). -/
def jsonStringList (l : List String) : String :=
  "[" ++ String.intercalate "," (l.map jsonString) ++ "]"

/-- Serialization `JSON.stringify` of a `PersonContainer`: a JSON object whose keys appear in
insertion order, values printed as string arrays, no whitespace. -/
def jsonPersonContainer (pc : PersonContainer) : String :=
  "\x7b" ++ String.intercalate "," (pc.map (fun e => jsonString e.1 ++ ":" ++ jsonStringList e.2)) ++ "\x7d"

/-- The single-quote character, written by code point. -/
def squote : String := (Char.ofNat 39).toString

/-- The step-4 user message of `findMatchingPerson` (src/unnamed/part_000
line 147): the problem text in single quotes and the serialized
PersonContainer, with the template's trailing space. -/
def findMatchingPersonUserMessage (pc : PersonContainer) (problem : String) : String :=
  "The problem is the following: " ++ squote ++ problem ++ squote ++ " and the persons with the skills are the following: " ++ jsonPersonContainer pc ++ " "

/-! ### The graph store and `addSkillToPerson` -/

/-- The graph-store state visible to this program: Person nodes, Skill nodes
and HAS_SKILL edges, each identified by name.  Node and edge lists keep
creation order. -/
structure GraphStore where
  persons : List String
  skills : List String
  edges : List (String × String)
deriving DecidableEq

/-- The function `addSkillToPerson` (src/unnamed/part_000 lines 170-178), the spec's
`assignSkill`: the Cypher query
`MERGE (person:Person {personName}) MERGE (skill:Skill {skillName})
MERGE (person)-[:HAS_SKILL]->(skill)` — each `MERGE` creates its node or edge
only when it is absent. -/
def addSkillToPerson (g : GraphStore) (person skill : String) : GraphStore :=
  let g1 := if person ∈ g.persons then g else { g with persons := g.persons ++ [person] }
  let g2 := if skill ∈ g1.skills then g1 else { g1 with skills := g1.skills ++ [skill] }
  if (person, skill) ∈ g2.edges then g2 else { g2 with edges := g2.edges ++ [(person, skill)] }

/-! ### The workflow with oracles and an event trace -/

/-- One external call issued by the workflow.  `writeSkill` is the
`addSkillToPerson` MERGE; the workflow never emits it (the call at
src/unnamed/part_000 line 30 is commented out), the constructor exists so that
read-only-ness is expressible. -/
inductive Event where
  | qAllSkills : Event
  | qPersons : String → Event
  | llmExtract : String → String → Event
  | llmMatch : String → String → Event
  | writeSkill : String → String → Event
deriving DecidableEq

/-- The two external collaborators, as oracles.  A store query either fails
with an I/O error or answers with a record list; an LLM structured-completion
call either fails with an I/O error (`Except.error`), answers something the
schema cannot parse (`Except.ok none`, JS `parsed === null`), or answers a
parsed object (`Except.ok (some _)`). -/
structure Oracles where
  allSkills : Except Err (List String)
  personsWithSkill : String → Except Err (List String)
  llmUseful : String → String → Except Err (Option UsefulSkills)
  llmMatch : String → String → Except Err (Option BestMatchingPerson)

/-- Result extraction of `findNecessarySkills` (src/unnamed/part_000 line 243):
`completion.choices[0].message.parsed?.skills` — `none` (JS `undefined`) when
the structured result did not parse, never a thrown error. -/
def findNecessarySkillsResult (parsed : Option UsefulSkills) : Option (List String) :=
  parsed.map UsefulSkills.skills

/-- The loop of `getPersonList` over the oracle store (src/unnamed/part_000
lines 113-128), recording one `qPersons` event per issued query and aborting
at the first failing query (the `await` rethrows). -/
def getPersonListT (ps : String → Except Err (List String)) :
    List String → PersonContainer → List Event × Except Err PersonContainer
  | [], acc => ([], Except.ok acc)
  | s :: rest, acc =>
    match ps s with
    | Except.error e => ([Event.qPersons s], Except.error e)
    | Except.ok persons =>
      let r := getPersonListT ps rest (processRecords acc s persons)
      (Event.qPersons s :: r.1, r.2)

/-- Embedding of `main` (src/unnamed/part_000 lines 18-47), from the `getAllSkills` call on:
step 1 reads all skills, step 2 asks the LLM for the useful skills, step 3
builds the PersonContainer, step 4 asks the LLM for the best match.  The
extraction-and-write block (lines 25-32) is dead code — `extractSkills` and
`addSkillToPerson` are commented out and the loop body is empty — so it
contributes nothing here.  The hard-coded problem text (line 34) is
generalized to the parameter `problem`; the guard `if (usefulSkills)` (line
38) is JS truthiness, which on a `string[] | undefined` value is false exactly
for `undefined` — an empty array is truthy.  Returns the full event trace and
the outcome: an uncaught error, or the optional MatchResult. -/
def mainWorkflow (problem : String) (o : Oracles) :
    List Event × Except Err (Option BestMatchingPerson) :=
  match o.allSkills with
  | Except.error e => ([Event.qAllSkills], Except.error e)
  | Except.ok allSkills =>
    let sys := findNecessarySkillsSystemContent allSkills
    match o.llmUseful sys problem with
    | Except.error e => ([Event.qAllSkills, Event.llmExtract sys problem], Except.error e)
    | Except.ok parsed =>
      match findNecessarySkillsResult parsed with
      | none => ([Event.qAllSkills, Event.llmExtract sys problem], Except.ok none)
      | some usefulSkills =>
        let r3 := getPersonListT o.personsWithSkill usefulSkills []
        match r3.2 with
        | Except.error e =>
          (Event.qAllSkills :: Event.llmExtract sys problem :: r3.1, Except.error e)
        | Except.ok personContainer =>
          let userMsg := findMatchingPersonUserMessage personContainer problem
          match o.llmMatch findMatchingPersonSystemMessage userMsg with
          | Except.error e =>
            (Event.qAllSkills :: Event.llmExtract sys problem :: r3.1
              ++ [Event.llmMatch findMatchingPersonSystemMessage userMsg], Except.error e)
          | Except.ok m =>
            (Event.qAllSkills :: Event.llmExtract sys problem :: r3.1
              ++ [Event.llmMatch findMatchingPersonSystemMessage userMsg], Except.ok m)

/-- Whether (and how) the oracle call behind an event fails: `some e` when the
adapter raises `e`, `none` when it answers. -/
def callError (o : Oracles) : Event → Option Err
  | Event.qAllSkills => match o.allSkills with | Except.error e => some e | Except.ok _ => none
  | Event.qPersons s => match o.personsWithSkill s with | Except.error e => some e | Except.ok _ => none
  | Event.llmExtract sys u => match o.llmUseful sys u with | Except.error e => some e | Except.ok _ => none
  | Event.llmMatch sys u => match o.llmMatch sys u with | Except.error e => some e | Except.ok _ => none
  | Event.writeSkill _ _ => none

/-- The effect of one external call on the graph-store state: the three
queries are read-only, only the `addSkillToPerson` MERGE writes. -/
def applyEvent (g : GraphStore) : Event → GraphStore
  | Event.qAllSkills => g
  | Event.qPersons _ => g
  | Event.llmExtract _ _ => g
  | Event.llmMatch _ _ => g
  | Event.writeSkill p s => addSkillToPerson g p s

/-! ### Lemmas about `addSkillToPerson` -/

lemma edges_addSkillToPerson (g : GraphStore) (p s : String) :
    (addSkillToPerson g p s).edges =
      if (p, s) ∈ g.edges then g.edges else g.edges ++ [(p, s)] := by
  simp only [addSkillToPerson]
  split_ifs <;> simp_all

lemma mem_persons_addSkillToPerson (g : GraphStore) (p s : String) :
    p ∈ (addSkillToPerson g p s).persons := by
  simp only [addSkillToPerson]
  split_ifs <;> simp_all

lemma mem_skills_addSkillToPerson (g : GraphStore) (p s : String) :
    s ∈ (addSkillToPerson g p s).skills := by
  simp only [addSkillToPerson]
  split_ifs <;> simp_all

lemma mem_edges_addSkillToPerson (g : GraphStore) (p s : String) :
    (p, s) ∈ (addSkillToPerson g p s).edges := by
  simp only [addSkillToPerson]
  split_ifs <;> simp_all

/-- C6: `addSkillToPerson` (the spec's `assignSkill`) is idempotent — a second
call with the same person and skill leaves the store state unchanged — and the
HAS_SKILL edge count after one call is `max 1` of the previous count, so no
duplicate edge between the same (Person, Skill) pair is ever created. -/
theorem addSkillToPerson_idempotent (g : GraphStore) (p s : String) :
    addSkillToPerson (addSkillToPerson g p s) p s = addSkillToPerson g p s ∧
    List.count (p, s) (addSkillToPerson g p s).edges = max 1 (List.count (p, s) g.edges) := by
  constructor
  · have h1 := mem_persons_addSkillToPerson g p s
    have h2 := mem_skills_addSkillToPerson g p s
    have h3 := mem_edges_addSkillToPerson g p s
    set g2 := addSkillToPerson g p s with hg2
    show addSkillToPerson g2 p s = g2
    simp only [addSkillToPerson]
    simp [h1, h2, h3]
  · rw [edges_addSkillToPerson]
    by_cases h : (p, s) ∈ g.edges
    · rw [if_pos h]
      have hpos : 0 < List.count (p, s) g.edges := List.count_pos_iff.mpr h
      omega
    · rw [if_neg h]
      have hz : List.count (p, s) g.edges = 0 := List.count_eq_zero.mpr h
      simp [List.count_append, hz]

/-- C10: called with the empty relevant-skill sequence, `getPersonList` issues
no person queries to the graph store (empty event trace) and returns the empty
PersonSkillMap; the pure version likewise returns the empty container. -/
theorem getPersonList_empty_skills (ps : String → Except Err (List String))
    (store : String → List String) :
    getPersonListT ps [] [] = ([], Except.ok []) ∧ getPersonList store [] = [] :=
  ⟨rfl, rfl⟩

/-- Oracle realizing the spec's scenario: the known skills are Java,
JavaScript and Rust, the extraction call answers `["Java"]`, and only "Java"
is held by anyone, namely by "Ada Lovelace". -/
def oracleScenario : Oracles :=
  ⟨Except.ok ["Java", "JavaScript", "Rust"],
    fun s => Except.ok (if s = "Java" then ["Ada Lovelace"] else []),
    fun _ _ => Except.ok (some ⟨["Java"]⟩),
    fun _ _ => Except.ok (some ⟨"Ada Lovelace", "knows Java"⟩)⟩

/-- C5: in the scenario with known skills `["Java","JavaScript","Rust"]` and
problem "I need a Java expert.", the step-2 system prompt embeds the three
skill names; with step 2 returning `["Java"]` and the store answering
`["Ada Lovelace"]` for "Java", the PersonSkillMap is exactly
`{"Ada Lovelace": ["Java"]}` and the step-4 user message carries exactly this
map serialized as JSON together with the original problem text; the full
workflow run over the scenario oracle issues exactly these calls. -/
theorem scenario_java_expert :
    mainWorkflow "I need a Java expert." oracleScenario =
      ([Event.qAllSkills,
        Event.llmExtract (findNecessarySkillsSystemContent ["Java", "JavaScript", "Rust"])
          "I need a Java expert.",
        Event.qPersons "Java",
        Event.llmMatch findMatchingPersonSystemMessage
          (findMatchingPersonUserMessage [("Ada Lovelace", ["Java"])] "I need a Java expert.")],
        Except.ok (some ⟨"Ada Lovelace", "knows Java"⟩)) ∧
    findNecessarySkillsSystemContent ["Java", "JavaScript", "Rust"] =
      "Find the skills out of the following list that could help the most with the problem the user describes. Java, JavaScript, Rust" ∧
    (∃ a b, findNecessarySkillsSystemContent ["Java", "JavaScript", "Rust"] = a ++ "Java" ++ b) ∧
    (∃ a b, findNecessarySkillsSystemContent ["Java", "JavaScript", "Rust"] = a ++ "JavaScript" ++ b) ∧
    (∃ a b, findNecessarySkillsSystemContent ["Java", "JavaScript", "Rust"] = a ++ "Rust" ++ b) ∧
    getPersonList (fun s => if s = "Java" then ["Ada Lovelace"] else []) ["Java"] =
      [("Ada Lovelace", ["Java"])] ∧
    jsonPersonContainer [("Ada Lovelace", ["Java"])] = "\x7b\"Ada Lovelace\":[\"Java\"]\x7d" ∧
    findMatchingPersonUserMessage [("Ada Lovelace", ["Java"])] "I need a Java expert." =
      "The problem is the following: " ++ squote ++ "I need a Java expert." ++ squote ++
        " and the persons with the skills are the following: \x7b\"Ada Lovelace\":[\"Java\"]\x7d " := by
  refine ⟨rfl, by decide, ⟨"Find the skills out of the following list that could help the most with the problem the user describes. ", ", JavaScript, Rust", by decide⟩, ⟨"Find the skills out of the following list that could help the most with the problem the user describes. Java, ", ", Rust", by decide⟩, ⟨"Find the skills out of the following list that could help the most with the problem the user describes. Java, JavaScript, ", "", by decide⟩, by decide, by decide, by decide⟩

/-- C2, counterexample: the known-skill list `[""]` is non-empty, yet the
step-2 system prompt it produces is identical to the empty-list prompt —
`findNecessarySkills` has no empty/non-empty branch, it always appends the
comma-join, which is empty for `[""]` as well as for `[]`. -/
theorem findNecessarySkills_prompt_collision :
    ([""] : List String) ≠ [] ∧
    findNecessarySkillsSystemContent [""] = findNecessarySkillsSystemContent [] :=
  ⟨by decide, by decide⟩

/-- C2, amended: in the empty case the step-2 system prompt is the bare fixed
sentence with no skill list appended, and it differs from the prompt of every
known-skill list whose comma-join is non-empty (in particular every list of
non-empty skill names).  The difference comes from string interpolation alone;
the explicit empty/non-empty branch of the program is in `extractSkills`, not
in step 2. -/
theorem findNecessarySkills_prompt_empty_case :
    findNecessarySkillsSystemContent [] =
      "Find the skills out of the following list that could help the most with the problem the user describes. " ∧
    ∀ skills : List String, String.intercalate ", " skills ≠ "" →
      findNecessarySkillsSystemContent skills ≠ findNecessarySkillsSystemContent [] := by
  refine ⟨by decide, fun skills hj h => hj ?_⟩
  unfold findNecessarySkillsSystemContent at h
  have hd := congrArg String.data h
  simp only [String.data_append] at hd
  have : (String.intercalate ", " skills).data = (String.intercalate ", " ([] : List String)).data :=
    List.append_cancel_left hd
  have hs : String.intercalate ", " skills = String.intercalate ", " ([] : List String) :=
    by apply String.ext; exact this
  simpa using hs

/-- Witness for the amended C2 at the concrete list `["Java"]`. -/
theorem findNecessarySkills_prompt_empty_case_witness :
    String.intercalate ", " ["Java"] ≠ "" ∧
    findNecessarySkillsSystemContent ["Java"] ≠ findNecessarySkillsSystemContent [] :=
  ⟨by decide, findNecessarySkills_prompt_empty_case.2 ["Java"] (by decide)⟩

/-- C3, counterexample: with the relevant-skill sequence `["Java","Java"]`
(the same skill name twice) and a store answering `["Ada"]` for "Java", the
person "Ada" ends up with the entry `["Java","Java"]` — the same skill more
than once. -/
theorem getPersonList_duplicate_skill_duplicates_entry :
    lookupEntry (getPersonList (fun s => if s = "Java" then ["Ada"] else []) ["Java", "Java"]) "Ada" =
      some ["Java", "Java"] ∧
    ¬ (["Java", "Java"] : List String).Nodup :=
  ⟨by decide, by decide⟩

/-! ### Lemmas about the PersonSkillMap construction -/

lemma lookupEntry_append_single (pc : PersonContainer) (p s q : String)
    (h : lookupEntry pc p = none) :
    lookupEntry (pc ++ [(p, [s])]) q = if q = p then some [s] else lookupEntry pc q := by
  induction pc with
  | nil =>
    by_cases hq : q = p
    · subst hq; simp [lookupEntry]
    · have hpq : p ≠ q := fun hh => hq hh.symm
      simp [lookupEntry, hq, hpq]
  | cons e rest ih =>
    simp only [lookupEntry] at h
    split at h
    · exact absurd h (by simp)
    · rename_i he
      by_cases hq : q = p
      · subst hq
        simp [lookupEntry, List.cons_append, he, ih h]
      · simp [lookupEntry, List.cons_append, hq, ih h]

lemma lookupEntry_map_update_ne (pc : PersonContainer) (p s q : String) (hq : q ≠ p) :
    lookupEntry (pc.map (fun e => if e.1 = p then (e.1, e.2 ++ [s]) else e)) q =
      lookupEntry pc q := by
  induction pc with
  | nil => rfl
  | cons e rest ih =>
    by_cases he : e.1 = p
    · have hne : e.1 ≠ q := fun hh => hq (hh.symm.trans he)
      simp [lookupEntry, he, hne, Ne.symm hq, ih]
    · simp [lookupEntry, he, ih]

lemma lookupEntry_map_update_eq (pc : PersonContainer) (p s : String) (l : List String)
    (h : lookupEntry pc p = some l) :
    lookupEntry (pc.map (fun e => if e.1 = p then (e.1, e.2 ++ [s]) else e)) p =
      some (l ++ [s]) := by
  induction pc with
  | nil => simp [lookupEntry] at h
  | cons e rest ih =>
    simp only [lookupEntry] at h
    by_cases he : e.1 = p
    · rw [if_pos he] at h
      simp only [List.map_cons, lookupEntry, if_pos he, if_pos he]
      exact congrArg some (congrArg (· ++ [s]) (Option.some_injective _ h))
    · rw [if_neg he] at h
      simp only [List.map_cons, lookupEntry, if_neg he, if_neg he, ih h]

/-- Effect of `addSkillEntry` on a single lookup: the target person's entry
gains the skill (starting from the empty list on first appearance), every
other entry is untouched. -/
lemma lookupEntry_addSkillEntry (pc : PersonContainer) (p s q : String) :
    lookupEntry (addSkillEntry pc p s) q =
      if q = p then some ((lookupEntry pc p).getD [] ++ [s]) else lookupEntry pc q := by
  unfold addSkillEntry
  cases hp : lookupEntry pc p with
  | none =>
    rw [if_pos rfl, lookupEntry_append_single pc p s q hp]
    by_cases hq : q = p <;> simp [hq, hp]
  | some l =>
    rw [if_neg (by simp [hp])]
    by_cases hq : q = p
    · subst hq
      rw [lookupEntry_map_update_eq pc q s l hp]
      simp [hp]
    · rw [lookupEntry_map_update_ne pc p s q hq, if_neg hq]

lemma lookupEntry_processRecords_not_mem (pc : PersonContainer) (skill : String)
    (persons : List String) (q : String) (hq : q ∉ persons) :
    lookupEntry (processRecords pc skill persons) q = lookupEntry pc q := by
  induction persons generalizing pc with
  | nil => rfl
  | cons p rest ih =>
    have hqp : q ≠ p := fun h => hq (h ▸ List.mem_cons_self p rest)
    have hqr : q ∉ rest := fun h => hq (List.mem_cons_of_mem p h)
    show lookupEntry (processRecords (addSkillEntry pc p skill) skill rest) q = _
    rw [ih (addSkillEntry pc p skill) hqr, lookupEntry_addSkillEntry, if_neg hqp]

lemma lookupEntry_processRecords_mem (pc : PersonContainer) (skill : String)
    (persons : List String) (q : String) (hnd : persons.Nodup) (hq : q ∈ persons) :
    lookupEntry (processRecords pc skill persons) q =
      some ((lookupEntry pc q).getD [] ++ [skill]) := by
  induction persons generalizing pc with
  | nil => exact absurd hq (List.not_mem_nil q)
  | cons p rest ih =>
    rcases List.mem_cons.mp hq with hq1 | hq2
    · subst hq1
      have hqr : q ∉ rest := (List.nodup_cons.mp hnd).1
      show lookupEntry (processRecords (addSkillEntry pc q skill) skill rest) q = _
      rw [lookupEntry_processRecords_not_mem _ _ _ _ hqr, lookupEntry_addSkillEntry, if_pos rfl]
    · have hqp : q ≠ p := fun h => (List.nodup_cons.mp hnd).1 (h ▸ hq2)
      show lookupEntry (processRecords (addSkillEntry pc p skill) skill rest) q = _
      rw [ih (addSkillEntry pc p skill) (List.nodup_cons.mp hnd).2 hq2,
        lookupEntry_addSkillEntry, if_neg hqp]

/-- Main characterization of the step-3 fold: provided each store answer lists
each person at most once, a person's entry after processing `skills` on top of
`pc` is their old entry extended by exactly the skills whose store answer
contains them, in processing order. -/
lemma lookupEntry_foldl_processRecords (store : String → List String)
    (hstore : ∀ s, (store s).Nodup) (skills : List String) (pc : PersonContainer) (q : String) :
    lookupEntry (skills.foldl (fun acc s => processRecords acc s (store s)) pc) q =
      if skills.filter (fun s => decide (q ∈ store s)) = [] then lookupEntry pc q
      else some ((lookupEntry pc q).getD [] ++ skills.filter (fun s => decide (q ∈ store s))) := by
  induction skills generalizing pc with
  | nil => simp
  | cons s rest ih =>
    simp only [List.foldl_cons, List.filter_cons]
    by_cases hm : q ∈ store s
    · have h1 : lookupEntry (processRecords pc s (store s)) q =
          some ((lookupEntry pc q).getD [] ++ [s]) :=
        lookupEntry_processRecords_mem pc s (store s) q (hstore s) hm
      rw [ih (processRecords pc s (store s)), h1]
      by_cases hf : rest.filter (fun s => decide (q ∈ store s)) = [] <;>
        simp [hm, hf]
    · have h1 : lookupEntry (processRecords pc s (store s)) q = lookupEntry pc q :=
        lookupEntry_processRecords_not_mem pc s (store s) q hm
      rw [ih (processRecords pc s (store s)), h1]
      simp [hm]

/-- Specialization to `getPersonList` (which starts from the empty container):
a person's entry, when present, is exactly the sublist of processed skills
whose store answer contains the person. -/
lemma lookupEntry_getPersonList (store : String → List String)
    (hstore : ∀ s, (store s).Nodup) (skills : List String) (q : String) :
    lookupEntry (getPersonList store skills) q =
      if skills.filter (fun s => decide (q ∈ store s)) = [] then none
      else some (skills.filter (fun s => decide (q ∈ store s))) := by
  unfold getPersonList
  rw [lookupEntry_foldl_processRecords store hstore skills [] q]
  by_cases hf : skills.filter (fun s => decide (q ∈ store s)) = [] <;> simp [hf, lookupEntry]

/-- C3, amended: provided the relevant-skill sequence has no duplicate skill
name and each store answer lists each person at most once (as the
no-duplicate-edge invariant of the graph guarantees), no person's entry in the
PersonSkillMap contains the same skill more than once. -/
theorem getPersonList_entries_nodup (store : String → List String) (skills : List String)
    (hstore : ∀ s, (store s).Nodup) (hskills : skills.Nodup) :
    ∀ q l, lookupEntry (getPersonList store skills) q = some l → l.Nodup := by
  intro q l h
  rw [lookupEntry_getPersonList store hstore skills q] at h
  split at h
  · exact absurd h (by simp)
  · cases h
    exact List.Nodup.filter _ hskills

/-- The concrete store of the witnesses: "Java" is held by "Ada", nothing
else is held by anyone. -/
def storeJavaAda : String → List String :=
  fun s => if s = "Java" then ["Ada"] else []

lemma storeJavaAda_nodup : ∀ s, (storeJavaAda s).Nodup := by
  intro s
  unfold storeJavaAda
  split <;> simp

/-- Witness for the amended C3 at skills `["Java", "C#"]` and the concrete
store `storeJavaAda`. -/
theorem getPersonList_entries_nodup_witness :
    (["Java", "C#"] : List String).Nodup ∧ (["Java"] : List String).Nodup :=
  ⟨by decide,
    getPersonList_entries_nodup storeJavaAda ["Java", "C#"] storeJavaAda_nodup (by decide)
      "Ada" ["Java"] (by decide)⟩

/-! ### Equivalence of `getPersonList` with the spec's reference construction -/

lemma lookupEntry_eq_none_iff (pc : PersonContainer) (q : String) :
    lookupEntry pc q = none ↔ q ∉ pc.map Prod.fst := by
  induction pc with
  | nil => simp [lookupEntry]
  | cons e rest ih =>
    by_cases he : e.1 = q
    · simp [lookupEntry, he]
    · have : ¬ q = e.1 := fun hh => he hh.symm
      simp [lookupEntry, he, this, ih]

lemma addSkillEntry_eq_refAppendSkill (pc : PersonContainer) (p s : String) :
    addSkillEntry pc p s = refAppendSkill pc p s := by
  unfold addSkillEntry refAppendSkill
  by_cases hk : p ∈ pc.map Prod.fst
  · rw [if_neg (fun hn => (lookupEntry_eq_none_iff pc p).mp hn hk), if_pos hk]
  · rw [if_pos ((lookupEntry_eq_none_iff pc p).mpr hk), if_neg hk]

lemma getPersonList_eq_personSkillMapRef (store : String → List String) (skills : List String) :
    getPersonList store skills = personSkillMapRef store skills := by
  have h : addSkillEntry = refAppendSkill := by
    funext pc p s
    exact addSkillEntry_eq_refAppendSkill pc p s
  unfold getPersonList personSkillMapRef processRecords
  rw [h]

lemma lookupEntry_processRecords_isSome (pc : PersonContainer) (skill : String)
    (persons : List String) (q : String) :
    (lookupEntry (processRecords pc skill persons) q).isSome ↔
      q ∈ persons ∨ (lookupEntry pc q).isSome := by
  induction persons generalizing pc with
  | nil => simp [processRecords]
  | cons p rest ih =>
    show (lookupEntry (processRecords (addSkillEntry pc p skill) skill rest) q).isSome ↔ _
    rw [ih (addSkillEntry pc p skill)]
    rw [lookupEntry_addSkillEntry]
    by_cases hq : q = p
    · simp [hq]
    · simp [hq]

lemma lookupEntry_getPersonList_isSome (store : String → List String) (skills : List String)
    (q : String) :
    (lookupEntry (getPersonList store skills) q).isSome ↔ ∃ s ∈ skills, q ∈ store s := by
  suffices h : ∀ pc : PersonContainer,
      (lookupEntry (skills.foldl (fun acc s => processRecords acc s (store s)) pc) q).isSome ↔
        (∃ s ∈ skills, q ∈ store s) ∨ (lookupEntry pc q).isSome by
    have h2 := h []
    simpa [getPersonList, lookupEntry] using h2
  induction skills with
  | nil => simp
  | cons s rest ih =>
    intro pc
    simp only [List.foldl_cons]
    rw [ih (processRecords pc s (store s)), lookupEntry_processRecords_isSome]
    simp only [List.mem_cons]
    constructor
    · rintro (⟨s', hs', hq⟩ | hq | hq)
      · exact Or.inl ⟨s', Or.inr hs', hq⟩
      · exact Or.inl ⟨s, Or.inl rfl, hq⟩
      · exact Or.inr hq
    · rintro (⟨s', hs' | hs', hq⟩ | hq)
      · exact Or.inr (Or.inl (hs' ▸ hq))
      · exact Or.inl ⟨s', hs', hq⟩
      · exact Or.inr (Or.inr hq)

/-- C4: for every non-empty relevant-skill sequence, `getPersonList` builds
exactly the PersonSkillMap of the spec's reference construction ("for each
skill in order, append the skill to the list of each person holding it,
creating the list on first appearance"), and it contains exactly those persons
returned by the store for at least one of the skills. -/
theorem getPersonList_spec (store : String → List String) (skills : List String)
    (_hne : skills ≠ []) :
    getPersonList store skills = personSkillMapRef store skills ∧
    ∀ p, (lookupEntry (getPersonList store skills) p).isSome ↔ ∃ s ∈ skills, p ∈ store s :=
  ⟨getPersonList_eq_personSkillMapRef store skills,
    fun p => lookupEntry_getPersonList_isSome store skills p⟩

/-- The concrete store of the spec's scenario: "Lius Hohmann" holds both
"JavaScript" and "C#". -/
def storeLius : String → List String :=
  fun s => if s = "JavaScript" then ["Lius Hohmann"] else if s = "C#" then ["Lius Hohmann"] else []

/-- Witness for C4 at the spec's scenario (skills `["JavaScript", "C#"]`, both
held by "Lius Hohmann"), also checking the scenario's expected map. -/
theorem getPersonList_spec_witness :
    (["JavaScript", "C#"] : List String) ≠ [] ∧
    (getPersonList storeLius ["JavaScript", "C#"] = personSkillMapRef storeLius ["JavaScript", "C#"] ∧
      ∀ p, (lookupEntry (getPersonList storeLius ["JavaScript", "C#"]) p).isSome ↔
        ∃ s ∈ (["JavaScript", "C#"] : List String), p ∈ storeLius s) ∧
    getPersonList storeLius ["JavaScript", "C#"] = [("Lius Hohmann", ["JavaScript", "C#"])] :=
  ⟨by decide, getPersonList_spec storeLius ["JavaScript", "C#"] (by decide), by decide⟩

/-! ### Workflow traces: read-only-ness, short-circuiting, failure propagation -/

/-- Whether an event is the write (`addSkillToPerson`) call. -/
def isWriteEvent : Event → Bool
  | Event.writeSkill _ _ => true
  | _ => false

lemma applyEvent_of_not_writeEvent (g : GraphStore) (ev : Event)
    (h : isWriteEvent ev = false) : applyEvent g ev = g := by
  cases ev <;> first | rfl | simp [isWriteEvent] at h

lemma foldl_applyEvent_of_no_write (l : List Event)
    (h : ∀ ev ∈ l, isWriteEvent ev = false) (g : GraphStore) :
    l.foldl applyEvent g = g := by
  induction l generalizing g with
  | nil => rfl
  | cons ev rest ih =>
    show rest.foldl applyEvent (applyEvent g ev) = g
    rw [applyEvent_of_not_writeEvent g ev (h ev (List.mem_cons_self ev rest))]
    exact ih (fun e he => h e (List.mem_cons_of_mem ev he)) g

lemma getPersonListT_events_are_queries (ps : String → Except Err (List String))
    (skills : List String) (acc : PersonContainer) :
    ∀ ev ∈ (getPersonListT ps skills acc).1, ∃ s, ev = Event.qPersons s := by
  induction skills generalizing acc with
  | nil => simp [getPersonListT]
  | cons s rest ih =>
    simp only [getPersonListT]
    cases hs : ps s with
    | error e => intro ev hev; simp at hev; exact ⟨s, hev⟩
    | ok persons =>
      intro ev hev
      simp only [List.mem_cons] at hev
      rcases hev with h | h
      · exact ⟨s, h⟩
      · exact ih (processRecords acc s persons) ev h

lemma mainWorkflow_no_write (problem : String) (o : Oracles) :
    ∀ ev ∈ (mainWorkflow problem o).1, isWriteEvent ev = false := by
  intro ev hev
  simp only [mainWorkflow] at hev
  split at hev
  · simp at hev; subst hev; rfl
  · split at hev
    · simp at hev
      rcases hev with h | h <;> subst h <;> rfl
    · split at hev
      · simp at hev
        rcases hev with h | h <;> subst h <;> rfl
      · split at hev
        · simp only [List.mem_cons] at hev
          rcases hev with h | h | h
          · subst h; rfl
          · subst h; rfl
          · obtain ⟨s, rfl⟩ := getPersonListT_events_are_queries _ _ _ ev h
            rfl
        · split at hev <;>
          · simp only [List.mem_cons, List.mem_append, List.mem_singleton,
              List.not_mem_nil, or_false] at hev
            rcases hev with (h | h | h) | h
            · subst h; rfl
            · subst h; rfl
            · obtain ⟨s, rfl⟩ := getPersonListT_events_are_queries _ _ _ ev h
              rfl
            · subst h; rfl

/-- C9: a complete workflow run leaves the graph-store state unchanged —
replaying every external call of its trace over any store state is the
identity, and in particular the write (`addSkillToPerson`) is never
invoked. -/
theorem mainWorkflow_readOnly (problem : String) (o : Oracles) :
    (∀ g : GraphStore, ((mainWorkflow problem o).1).foldl applyEvent g = g) ∧
    ∀ p s, Event.writeSkill p s ∉ (mainWorkflow problem o).1 := by
  constructor
  · intro g
    exact foldl_applyEvent_of_no_write _ (mainWorkflow_no_write problem o) g
  · intro p s hmem
    have h := mainWorkflow_no_write problem o _ hmem
    simp [isWriteEvent] at h

/-- C7: when the step-2 structured-completion call yields no parseable result
(`ok none`, JS `parsed === null`), the workflow returns absent — not an error —
and takes no further action: the trace stops after the extraction call, with
no person query and no match call. -/
theorem findNecessarySkills_absent_no_further_action (problem : String) (o : Oracles)
    (allSkills : List String) (h1 : o.allSkills = Except.ok allSkills)
    (h2 : o.llmUseful (findNecessarySkillsSystemContent allSkills) problem = Except.ok none) :
    mainWorkflow problem o =
      ([Event.qAllSkills, Event.llmExtract (findNecessarySkillsSystemContent allSkills) problem],
        Except.ok none) := by
  simp [mainWorkflow, h1, h2, findNecessarySkillsResult]

/-- Oracle for the witnesses: the extraction call yields no parseable
result. -/
def oracleAbsent : Oracles :=
  ⟨Except.ok ["Java"], fun _ => Except.ok [], fun _ _ => Except.ok none,
    fun _ _ => Except.ok none⟩

/-- Witness for C7 at the oracle `oracleAbsent`. -/
theorem findNecessarySkills_absent_no_further_action_witness :
    mainWorkflow "help me" oracleAbsent =
      ([Event.qAllSkills, Event.llmExtract (findNecessarySkillsSystemContent ["Java"]) "help me"],
        Except.ok none) :=
  findNecessarySkills_absent_no_further_action "help me" oracleAbsent ["Java"] rfl rfl

/-- Oracle for the C1 counterexample: step 2 parses successfully but returns
the empty skill list, and the match call answers. -/
def oracleEmptyExtract : Oracles :=
  ⟨Except.ok [], fun _ => Except.ok [], fun _ _ => Except.ok (some ⟨[]⟩),
    fun _ _ => Except.ok (some ⟨"Nobody", "the map is empty"⟩)⟩

/-- C1, counterexample: when step 2 yields the empty skill sequence (`ok
(some [])`, a parseable answer with zero skills), the workflow does NOT
short-circuit: the guard `if (usefulSkills)` is JS truthiness and an empty
array is truthy, so step 3 runs (issuing zero queries) and step 4 — the
`llmMatch` call — executes with the empty map, and its answer, not absent, is
the outcome. -/
theorem emptySkillSequence_not_shortCircuited :
    oracleEmptyExtract.llmUseful (findNecessarySkillsSystemContent []) "p" =
      Except.ok (some ⟨[]⟩) ∧
    (mainWorkflow "p" oracleEmptyExtract).1 =
      [Event.qAllSkills, Event.llmExtract (findNecessarySkillsSystemContent []) "p",
        Event.llmMatch findMatchingPersonSystemMessage (findMatchingPersonUserMessage [] "p")] ∧
    (mainWorkflow "p" oracleEmptyExtract).2 =
      Except.ok (some ⟨"Nobody", "the map is empty"⟩) :=
  ⟨rfl, rfl, rfl⟩

/-- C1, amended: the workflow short-circuits — returns absent with the match
step never executed — exactly when step 2 returns an absent (unparseable)
result.  A parseable empty skill sequence does not short-circuit: the guard
only tests for absence (an empty JS array is truthy), steps 3 and 4 still
execute, step 3 issuing no queries. -/
theorem workflow_shortCircuits_iff_extraction_absent (problem : String) (o : Oracles)
    (allSkills : List String) (h1 : o.allSkills = Except.ok allSkills) :
    ((mainWorkflow problem o).2 = Except.ok none ∧
        ∀ sys u, Event.llmMatch sys u ∉ (mainWorkflow problem o).1) ↔
      o.llmUseful (findNecessarySkillsSystemContent allSkills) problem = Except.ok none := by
  cases h2 : o.llmUseful (findNecessarySkillsSystemContent allSkills) problem with
  | error e =>
    simp [mainWorkflow, h1, h2]
  | ok parsed =>
    cases parsed with
    | none =>
      simp [mainWorkflow, h1, h2, findNecessarySkillsResult]
    | some us =>
      simp only [mainWorkflow, h1, h2, findNecessarySkillsResult, Option.map_some']
      cases h4 : (getPersonListT o.personsWithSkill us.skills []).2 with
      | error e4 =>
        simp [h4]
      | ok pc =>
        simp only [h4]
        cases h5 : o.llmMatch findMatchingPersonSystemMessage
            (findMatchingPersonUserMessage pc problem) with
        | error e5 =>
          simp only [h5]
          constructor
          · rintro ⟨hres, _⟩
            exact absurd hres (by simp)
          · intro hr
            exact absurd hr (by simp)
        | ok m =>
          simp only [h5]
          constructor
          · rintro ⟨_, hno⟩
            exact absurd (hno findMatchingPersonSystemMessage
              (findMatchingPersonUserMessage pc problem)) (by simp)
          · intro hr
            exact absurd hr (by simp)

/-- Witness for the amended C1 at the oracle `oracleAbsent`. -/
theorem workflow_shortCircuits_iff_extraction_absent_witness :
    ((mainWorkflow "p2" oracleAbsent).2 = Except.ok none ∧
        ∀ sys u, Event.llmMatch sys u ∉ (mainWorkflow "p2" oracleAbsent).1) ↔
      oracleAbsent.llmUseful (findNecessarySkillsSystemContent ["Java"]) "p2" = Except.ok none :=
  workflow_shortCircuits_iff_extraction_absent "p2" oracleAbsent ["Java"] rfl

lemma getPersonListT_events_of_ok (ps : String → Except Err (List String))
    (skills : List String) (acc pc : PersonContainer)
    (h : (getPersonListT ps skills acc).2 = Except.ok pc) :
    ∀ ev ∈ (getPersonListT ps skills acc).1,
      ∃ s l, ev = Event.qPersons s ∧ ps s = Except.ok l := by
  induction skills generalizing acc with
  | nil => simp [getPersonListT]
  | cons s rest ih =>
    simp only [getPersonListT] at h ⊢
    cases hs : ps s with
    | error e => simp [hs] at h
    | ok persons =>
      simp only [hs] at h ⊢
      intro ev hev
      rcases List.mem_cons.mp hev with rfl | hev2
      · exact ⟨s, persons, rfl, hs⟩
      · exact ih (processRecords acc s persons) h ev hev2

lemma getPersonListT_error_shape (ps : String → Except Err (List String))
    (skills : List String) (acc : PersonContainer) (e : Err)
    (h : (getPersonListT ps skills acc).2 = Except.error e) :
    ∃ evs lastS, (getPersonListT ps skills acc).1 = evs ++ [Event.qPersons lastS] ∧
      ps lastS = Except.error e ∧
      ∀ ev ∈ evs, ∃ s l, ev = Event.qPersons s ∧ ps s = Except.ok l := by
  induction skills generalizing acc with
  | nil => simp [getPersonListT] at h
  | cons s rest ih =>
    simp only [getPersonListT] at h ⊢
    cases hs : ps s with
    | error e2 =>
      simp only [hs] at h ⊢
      obtain rfl : e2 = e := by simpa using h
      exact ⟨[], s, by simp, hs, by simp⟩
    | ok persons =>
      simp only [hs] at h ⊢
      obtain ⟨evs, lastS, ht, hps, hok⟩ := ih (processRecords acc s persons) h
      refine ⟨Event.qPersons s :: evs, lastS, by rw [ht]; simp, hps, ?_⟩
      intro ev hev
      rcases List.mem_cons.mp hev with rfl | hev2
      · exact ⟨s, persons, rfl, hs⟩
      · exact hok ev hev2

/-- C8: whenever the workflow's outcome is an error, some adapter call failed
with exactly that error, the trace ends at that failing call (no later step
executed), every earlier call succeeded, and no MatchResult was produced (the
outcome is the propagated error, not a partial result). -/
theorem adapter_failure_aborts_workflow (problem : String) (o : Oracles) (e : Err)
    (h : (mainWorkflow problem o).2 = Except.error e) :
    ∃ evs lastEv, (mainWorkflow problem o).1 = evs ++ [lastEv] ∧
      callError o lastEv = some e ∧ ∀ ev ∈ evs, callError o ev = none := by
  cases h1 : o.allSkills with
  | error e1 =>
    simp only [mainWorkflow, h1] at h ⊢
    obtain rfl : e1 = e := by simpa using h
    exact ⟨[], Event.qAllSkills, by simp, by simp [callError, h1], by simp⟩
  | ok allSkills =>
    cases h2 : o.llmUseful (findNecessarySkillsSystemContent allSkills) problem with
    | error e2 =>
      simp only [mainWorkflow, h1, h2] at h ⊢
      obtain rfl : e2 = e := by simpa using h
      refine ⟨[Event.qAllSkills],
        Event.llmExtract (findNecessarySkillsSystemContent allSkills) problem,
        by simp, by simp [callError, h2], ?_⟩
      intro ev hev
      simp only [List.mem_singleton] at hev
      subst hev
      simp [callError, h1]
    | ok parsed =>
      cases parsed with
      | none =>
        simp only [mainWorkflow, h1, h2, findNecessarySkillsResult, Option.map_none'] at h
        exact absurd h (by simp)
      | some us =>
        simp only [mainWorkflow, h1, h2, findNecessarySkillsResult, Option.map_some'] at h ⊢
        cases h4 : (getPersonListT o.personsWithSkill us.skills []).2 with
        | error e4 =>
          simp only [h4] at h ⊢
          obtain rfl : e4 = e := by simpa using h
          obtain ⟨evs, lastS, ht, hps, hok⟩ := getPersonListT_error_shape _ _ _ _ h4
          refine ⟨Event.qAllSkills ::
              Event.llmExtract (findNecessarySkillsSystemContent allSkills) problem :: evs,
            Event.qPersons lastS, by rw [ht]; simp, by simp [callError, hps], ?_⟩
          intro ev hev
          rcases List.mem_cons.mp hev with rfl | hev2
          · simp [callError, h1]
          rcases List.mem_cons.mp hev2 with rfl | hev3
          · simp [callError, h2]
          · obtain ⟨s, l, rfl, hs⟩ := hok ev hev3
            simp [callError, hs]
        | ok pc =>
          simp only [h4] at h ⊢
          cases h5 : o.llmMatch findMatchingPersonSystemMessage
              (findMatchingPersonUserMessage pc problem) with
          | error e5 =>
            simp only [h5] at h ⊢
            obtain rfl : e5 = e := by simpa using h
            refine ⟨Event.qAllSkills ::
                Event.llmExtract (findNecessarySkillsSystemContent allSkills) problem ::
                (getPersonListT o.personsWithSkill us.skills []).1,
              Event.llmMatch findMatchingPersonSystemMessage
                (findMatchingPersonUserMessage pc problem),
              rfl, by simp [callError, h5], ?_⟩
            intro ev hev
            rcases List.mem_cons.mp hev with rfl | hev2
            · simp [callError, h1]
            rcases List.mem_cons.mp hev2 with rfl | hev3
            · simp [callError, h2]
            · obtain ⟨s, l, rfl, hs⟩ := getPersonListT_events_of_ok _ _ _ _ h4 ev hev3
              simp [callError, hs]
          | ok m =>
            simp only [h5] at h
            exact absurd h (by simp)

/-- Oracle for the C8 witness: the very first store query fails. -/
def oracleStoreDown : Oracles :=
  ⟨Except.error "store unreachable", fun _ => Except.ok [], fun _ _ => Except.ok none,
    fun _ _ => Except.ok none⟩

/-- Witness for C8 at the oracle `oracleStoreDown`. -/
theorem adapter_failure_aborts_workflow_witness :
    ∃ evs lastEv, (mainWorkflow "p" oracleStoreDown).1 = evs ++ [lastEv] ∧
      callError oracleStoreDown lastEv = some "store unreachable" ∧
      ∀ ev ∈ evs, callError oracleStoreDown ev = none :=
  adapter_failure_aborts_workflow "p" oracleStoreDown "store unreachable" rfl

end Nexus
